import Mathlib

/-!
Verification of the mas-scout entity-resolution and snapshot/diff core.

JavaScript strings are modelled as lists of characters (`Str`); the
handful of regular expressions used by the source are compiled by hand
into executable recognizers with the same leftmost-match semantics,
restricted to the ASCII character classes that the data uses.
-/

namespace MasScout

/-- JS strings, modelled as lists of characters. -/
abbrev Str := List Char

/-- The whitespace class of JavaScript regular expressions (`\s`) and of
`String.prototype.trim`, restricted to ASCII whitespace. -/
def jsSpace (c : Char) : Bool :=
  c = ' ' || c = '\t' || c = '\n' || c = '\r' || c = '\x0b' || c = '\x0c'

/-- A regex word character (`\w`), as consulted by the `\b` boundary
assertion of `LEGAL_SUFFIXES`. -/
def isWordChar (c : Char) : Bool :=
  ('a' ≤ c && c ≤ 'z') || ('A' ≤ c && c ≤ 'Z') || ('0' ≤ c && c ≤ '9') || c = '_'

/-- `String.prototype.toLowerCase` on one character (ASCII). -/
def lowerChar (c : Char) : Char :=
  if 'A' ≤ c && c ≤ 'Z' then Char.ofNat (c.toNat + 32) else c

/-- `String.prototype.toLowerCase`. -/
def lowerStr (s : Str) : Str := s.map lowerChar

/-- `String.prototype.trim`, left half. -/
def trimLeft (s : Str) : Str := s.dropWhile jsSpace

/-- `String.prototype.trim`, right half. -/
def trimRight (s : Str) : Str := (s.reverse.dropWhile jsSpace).reverse

/-- `String.prototype.trim`. -/
def jsTrim (s : Str) : Str := trimRight (trimLeft s)

/-- `s.split(/\s+/)` worker; the flag is true while scanning a
whitespace run (a separator), false while accumulating a part
(in reverse) in `acc`. -/
def splitWsGo : Bool → Str → Str → List Str
  | false, [], acc => [acc.reverse]
  | false, c :: l, acc =>
    if jsSpace c then acc.reverse :: splitWsGo true l [] else splitWsGo false l (c :: acc)
  | true, [], _ => [[]]
  | true, c :: l, _ =>
    if jsSpace c then splitWsGo true l [] else splitWsGo false l [c]

/-- `s.split(/\s+/)`: split on maximal whitespace runs.  As in JS, a
leading (resp. trailing) whitespace run produces a leading (resp.
trailing) empty part, and the result is never the empty list. -/
def jsSplitWs (s : Str) : List Str := splitWsGo false s []

/-- Worker for `jsReplaceAll` with a nonempty pattern `p₀ :: ps`:
scan left to right, replacing each (non-overlapping, leftmost-first)
occurrence of the pattern by the character `r`.  The `fuel` argument
only makes the recursion structural; it never runs out when it starts
at the length of the string (the pattern is nonempty). -/
def replaceAllGo (p₀ : Char) (ps : Str) (r : Char) : Nat → Str → Str
  | 0, s => s
  | _ + 1, [] => []
  | fuel + 1, c :: s =>
    if (p₀ :: ps).isPrefixOf (c :: s) then
      r :: replaceAllGo p₀ ps r fuel (s.drop ps.length)
    else c :: replaceAllGo p₀ ps r fuel s

/-- `s.replaceAll(pat, r)` where the replacement is the one-character
string `r` (the source always replaces by `' '`).  For the empty
pattern, JS inserts the replacement at every position. -/
def jsReplaceAll (s pat : Str) (r : Char) : Str :=
  match pat with
  | [] => r :: s.foldr (fun c acc => c :: r :: acc) []
  | p₀ :: ps => replaceAllGo p₀ ps r s.length s

/-- Consume a literal (given in lowercase) case-insensitively from the
head of `s`; return the remainder on success. -/
def litCI : Str → Str → Option Str
  | [], s => some s
  | _ :: _, [] => none
  | p :: ps, c :: s => if lowerChar c = p then litCI ps s else none

/-- Consume one optional `'.'` (regex `\.?`). -/
def eatDot : Str → Str
  | '.' :: s => s
  | s => s

/-- Consume `\s*` greedily. -/
def eatWs (s : Str) : Str := s.dropWhile jsSpace

/-- Does `s` match `\s*\.?\s*$`? -/
def wsDotWsEnd (s : Str) : Bool :=
  match s.dropWhile jsSpace with
  | [] => true
  | '.' :: rest => (rest.dropWhile jsSpace).isEmpty
  | _ => false

/-- Does `s` match `\.?\s*\.?\s*$` (an alternative's own trailing `\.?`
followed by the regex's closing `\s*\.?\s*$`)? -/
def dotWsDotWsEnd (s : Str) : Bool :=
  match s with
  | '.' :: rest => wsDotWsEnd rest
  | _ => wsDotWsEnd s

/-- Run a continuation on the remainder of a partial match. -/
def andThen (o : Option Str) (f : Str → Bool) : Bool :=
  match o with
  | some r => f r
  | none => false

/-- One alternative of `LEGAL_SUFFIXES` starting from the `\b` position,
followed by the closing `\s*\.?\s*$` of the regex.  The twelve
alternatives, in source order:
`PTE\.?\s*LTD\.?|PRIVATE\s+LIMITED|LIMITED|LTD\.?|INC\.?|CORP\.?|LLC|L\.?P\.?|S\.?A\.?|GMBH|PTY\.?\s*LTD\.?|CO\.?\s*LTD\.?`. -/
def suffixAltTail (l : Str) : Bool :=
  (andThen (litCI "pte".data l) fun r =>
    andThen (litCI "ltd".data (eatWs (eatDot r))) dotWsDotWsEnd) ||
  (andThen (litCI "private".data l) fun r =>
    match r with
    | c :: r2 => jsSpace c && andThen (litCI "limited".data (r2.dropWhile jsSpace)) wsDotWsEnd
    | [] => false) ||
  (andThen (litCI "limited".data l) wsDotWsEnd) ||
  (andThen (litCI "ltd".data l) dotWsDotWsEnd) ||
  (andThen (litCI "inc".data l) dotWsDotWsEnd) ||
  (andThen (litCI "corp".data l) dotWsDotWsEnd) ||
  (andThen (litCI "llc".data l) wsDotWsEnd) ||
  (andThen (litCI "l".data l) fun r =>
    andThen (litCI "p".data (eatDot r)) dotWsDotWsEnd) ||
  (andThen (litCI "s".data l) fun r =>
    andThen (litCI "a".data (eatDot r)) dotWsDotWsEnd) ||
  (andThen (litCI "gmbh".data l) wsDotWsEnd) ||
  (andThen (litCI "pty".data l) fun r =>
    andThen (litCI "ltd".data (eatWs (eatDot r))) dotWsDotWsEnd) ||
  (andThen (litCI "co".data l) fun r =>
    andThen (litCI "ltd".data (eatWs (eatDot r))) dotWsDotWsEnd)

/-- The leading `\s*` of `LEGAL_SUFFIXES` with at least one whitespace
character consumed before the `\b` (in which case the boundary holds
automatically, whitespace not being a word character). -/
def wsThenAlt : Str → Bool
  | [] => false
  | c :: l => jsSpace c && (suffixAltTail l || wsThenAlt l)

/-- Does `LEGAL_SUFFIXES` match `s` starting at index `i`?  Either the
`\s*` consumes nothing — then the `\b` requires the previous character
(if any) not to be a word character — or it consumes a nonempty
whitespace run. -/
def suffixMatchAt (s : Str) (i : Nat) : Bool :=
  ((i = 0 : Bool) || !isWordChar (s.getD (i - 1) ' ')) && suffixAltTail (s.drop i) ||
  wsThenAlt (s.drop i)

/-- `name.replace(LEGAL_SUFFIXES, '')`: the regex is anchored at `$`, so
replacing the leftmost match keeps exactly the prefix before its start. -/
def stripLegalSuffix (s : Str) : Str :=
  match (List.range s.length).find? (fun i => suffixMatchAt s i) with
  | some i => s.take i
  | none => s

/-- `name.replace(/\s*\(SINGAPORE\)\s*/i, ' ')`: the leftmost match
starts at the whitespace run preceding the first case-insensitive
occurrence of `"(singapore)"` and extends greedily over the following
whitespace; it is replaced by a single space. -/
def stripSingapore (s : Str) : Str :=
  match (List.range s.length).find? (fun j => (litCI "(singapore)".data (s.drop j)).isSome) with
  | none => s
  | some j =>
    let i := j - ((s.take j).reverse.takeWhile jsSpace).length
    s.take i ++ ' ' :: ((s.drop (j + 11)).dropWhile jsSpace)

/-- `normalizeCompanyName` (src/enricher/scraper.js):
`name.replace(LEGAL_SUFFIXES, '').replace(/\s*\(SINGAPORE\)\s*/i, ' ').trim()`. -/
def normalizeCompanyName (name : Str) : Str :=
  jsTrim (stripSingapore (stripLegalSuffix name))

example : normalizeCompanyName "HASHKEY DIGITAL ASSET GROUP PTE. LTD.".data
    = "HASHKEY DIGITAL ASSET GROUP".data := by decide

example : normalizeCompanyName "ABC (SINGAPORE) PTE LTD".data = "ABC".data := by decide

example : normalizeCompanyName "ABC PRIVATE LIMITED".data = "ABC".data := by decide

example : normalizeCompanyName "OpenAI".data = "OpenAI".data := by decide

example : normalizeCompanyName "A LIMITED LTD".data = "A LIMITED".data := by decide

/-- The separator class `[\|–-]` (pipe, en dash, hyphen). -/
def sepChar (c : Char) : Bool := c = '|' || c = '–' || c = '-'

/-- `[\|–-]\s*LinkedIn\s*$` from the current position. -/
def sepLinkedInEnd : Str → Bool
  | [] => false
  | c :: l =>
    sepChar c &&
      andThen (litCI "linkedin".data (l.dropWhile jsSpace))
        (fun r => (r.dropWhile jsSpace).isEmpty)

/-- `\s*[\|–-]\s*LinkedIn\s*$` from the current position (the leading
`\s*` may consume any prefix of a whitespace run). -/
def wsSepLinkedInEnd : Str → Bool
  | [] => false
  | c :: l => sepLinkedInEnd (c :: l) || (jsSpace c && wsSepLinkedInEnd l)

/-- `title.replace(/\s*[\|–-]\s*LinkedIn\s*$/i, '')`: anchored at `$`,
so the result is the prefix before the leftmost match start. -/
def stripLinkedInTail (s : Str) : Str :=
  match (List.range s.length).find? (fun i => wsSepLinkedInEnd (s.drop i)) with
  | some i => s.take i
  | none => s

/-- `s.split(/\s*[\|–-]\s*/)[0]`: the text before the first match,
which starts at the whitespace run immediately preceding the first
separator character (the whole string when no separator occurs). -/
def splitSepHead (s : Str) : Str :=
  match (List.range s.length).find? (fun j => sepChar (s.getD j ' ')) with
  | none => s
  | some j => s.take (j - ((s.take j).reverse.takeWhile jsSpace).length)

/-- Lines 58–59 of `resultMentionsCompany`: the putative contact name,
`title.replace(/\s*[\|–-]\s*LinkedIn\s*$/i, '').split(/\s*[\|–-]\s*/)[0]?.trim()?.toLowerCase() || ''`. -/
def contactNameOf (title : Str) : Str :=
  lowerStr (jsTrim (splitSepHead (stripLinkedInTail title)))

/-- The stop-list of generic corporate words.  `resultMentionsCompany`
and `verifyContactCompany` each construct this identical set. -/
def skipWords : List Str :=
  ["pte", "ltd", "the", "and", "of", "for", "group", "holdings", "services",
   "technology", "global", "international", "asia", "pacific", "capital",
   "management", "financial", "digital", "asset"].map String.data

/-- `clean.split(/\s+/).filter(w => w.length >= 3 && !skipWords.has(w))`. -/
def significantKeywords (clean : Str) : List Str :=
  (jsSplitWs clean).filter (fun w => 3 ≤ w.length && !(skipWords.contains w))

/-- Stable insertion step for `sort((a, b) => b.length - a.length)`:
an element is placed before the first element that is not strictly
longer, so that equal lengths keep their input order. -/
def insertLenDesc (a : Str) : List Str → List Str
  | [] => [a]
  | b :: l => if b.length ≤ a.length then a :: b :: l else b :: insertLenDesc a l

/-- `keywords.sort((a, b) => b.length - a.length)`:
`Array.prototype.sort` is stable (ES2019), and a stable sort by a total
preorder has a unique result, modelled here by stable insertion sort. -/
def sortLenDesc : List Str → List Str
  | [] => []
  | a :: l => insertLenDesc a (sortLenDesc l)

/-- `s.includes(pat)` (substring containment). -/
def jsIncludes (s pat : Str) : Bool :=
  pat.isPrefixOf s ||
    match s with
    | [] => false
    | _ :: t => jsIncludes t pat

/-- The loop of lines 64–70 of `resultMentionsCompany`: for each word of
the contact name of length ≥ 3, `text = text.replaceAll(namePart, ' ')`. -/
def stripNameWords (ws : List Str) (t : Str) : Str :=
  ws.foldl (fun t namePart => if 3 ≤ namePart.length then jsReplaceAll t namePart ' ' else t) t

/-- Lines 58–70 of `resultMentionsCompany`: the combined lowercased
title+snippet text after removing every word (≥3 chars) of the contact
name via `text.replaceAll(namePart, ' ')`. -/
def strippedText (title snippet : Str) : Str :=
  let contactName := contactNameOf title
  let text := lowerStr (title ++ ' ' :: snippet)
  if 3 ≤ contactName.length then stripNameWords (jsSplitWs contactName) text
  else text

/-- `resultMentionsCompany` (src/enricher/scraper.js, lines 57–87). -/
def resultMentionsCompany (title snippet companyName : Str) : Bool :=
  let text := strippedText title snippet
  let clean := lowerStr (normalizeCompanyName companyName)
  let keywords := significantKeywords clean
  if keywords.isEmpty then jsIncludes text clean
  else (sortLenDesc keywords).any (fun kw => jsIncludes text kw)

/-- The result of `parseLinkedInResult`: a candidate contact; `employer`
is `none` when no employer evidence was extracted. -/
structure ParsedContact where
  name : Str
  title : Str
  employer : Option Str
deriving DecidableEq

/-- `verifyContactCompany` (src/enricher/scraper.js, lines 310–327).
`if (!parsed.employer) return true` lets `null` and the empty string
through; the keyword extraction is the same code as in
`resultMentionsCompany`. -/
def verifyContactCompany (parsed : ParsedContact) (targetCompanyName : Str) : Bool :=
  match parsed.employer with
  | none => true
  | some e =>
    if e.isEmpty then true
    else
      let employer := lowerStr e
      let target := lowerStr (normalizeCompanyName targetCompanyName)
      let keywords := significantKeywords target
      if keywords.isEmpty then jsIncludes employer target
      else (sortLenDesc keywords).any (fun kw => jsIncludes employer kw)

example : resultMentionsCompany "Ariana Lobo - Compliance Manager - XYZ Corp".data
    "Works at XYZ Corp".data "ARIANA INVESTMENT PTE. LTD.".data = false := by decide

example : resultMentionsCompany "John Smith - CCO - Ariana Investment".data
    "Chief Compliance Officer at Ariana Investment".data
    "ARIANA INVESTMENT PTE. LTD.".data = true := by decide

example : resultMentionsCompany "Foo".data "ariana fund".data
    "ARIANA INVESTMENT PTE. LTD.".data = true := by decide

example : jsIncludes (strippedText "Foo".data "ariana fund".data) "investment".data = false := by
  decide

example : verifyContactCompany ⟨"J".data, "T".data, some "Apollo Management".data⟩
    "APOLLO MANAGEMENT INTERNATIONAL PTE LTD".data = true := by decide

example : verifyContactCompany ⟨"J".data, "T".data, some "JPMorgan Chase".data⟩
    "APOLLO MANAGEMENT INTERNATIONAL PTE LTD".data = false := by decide

example : jsIncludes (strippedText "Vest Tan - Analyst".data "works at investco".data)
    "investco".data = false := by decide

example : resultMentionsCompany "Vest Tan - Analyst".data "works at investco".data
    "INVESTCO PTE LTD".data = false := by decide

/-- A contact as consumed by `rankContacts`; only `title` is inspected,
the other fields ride along through the `{ ...c }` spread. -/
structure Contact where
  name : Str
  title : Str
  email : Str
  linkedInUrl : Str
deriving DecidableEq

/-- The `{ ...c, priority }` object built by `rankContacts`: the input
contact extended with a `priority` field. -/
structure RankedContact where
  base : Contact
  priority : Nat
deriving DecidableEq

/-- The `titlePriority` table of `rankContacts` (src/enricher/index.js),
in source (insertion) order. -/
def titlePriority : List (Str × Nat) :=
  [("Chief Compliance Officer".data, 1), ("CCO".data, 1), ("MLRO".data, 2),
   ("Money Laundering Reporting Officer".data, 2), ("Head of Compliance".data, 3),
   ("VP Compliance".data, 4), ("Vice President Compliance".data, 4),
   ("Director of Compliance".data, 5), ("Compliance Director".data, 5)]

/-- `Object.entries(titlePriority).find(([key]) => c.title?.toLowerCase().includes(key.toLowerCase()))`
followed by `priority ? priority[1] : 99`. -/
def findPriority (title : Str) : Nat :=
  match titlePriority.find? (fun e => jsIncludes (lowerStr title) (lowerStr e.1)) with
  | some e => e.2
  | none => 99

/-- Stable insertion step for `.sort((a, b) => a.priority - b.priority)`:
an element is placed before the first element with priority not below
its own, so equal priorities keep their input order. -/
def insertByPriority (a : RankedContact) : List RankedContact → List RankedContact
  | [] => [a]
  | b :: l => if a.priority ≤ b.priority then a :: b :: l else b :: insertByPriority a l

/-- `.sort((a, b) => a.priority - b.priority)`: `Array.prototype.sort`
is stable (ES2019), and a stable sort by a total preorder has a unique
result, modelled here by stable insertion sort. -/
def sortByPriority : List RankedContact → List RankedContact
  | [] => []
  | a :: l => insertByPriority a (sortByPriority l)

/-- `rankContacts` (src/enricher/index.js, lines 32–52). -/
def rankContacts (contacts : List Contact) : List RankedContact :=
  sortByPriority (contacts.map (fun c => ⟨c, findPriority c.title⟩))

/-- Build a contact with only a title, as in the enricher tests. -/
def mkContact (title : Str) : Contact := ⟨[], title, [], []⟩

example : rankContacts
    [mkContact "Software Engineer".data, mkContact "Head of Compliance".data,
     mkContact "CCO".data, mkContact "MLRO".data] =
    [⟨mkContact "CCO".data, 1⟩, ⟨mkContact "MLRO".data, 2⟩,
     ⟨mkContact "Head of Compliance".data, 3⟩,
     ⟨mkContact "Software Engineer".data, 99⟩] := by decide

/-- A registry institution as produced by `parseInstitutionList`
(src/watcher/scraper.js): the registry-assigned `fid` may be `''`. -/
structure Institution where
  name : Str
  fid : Str
  detailUrl : Str
  licenseType : Str
  address : Str
  website : Str
  phone : Str
deriving DecidableEq

/-- An institution with only a name and a fid (other fields empty). -/
def mkInst (name fid : Str) : Institution := ⟨name, fid, [], [], [], [], []⟩

/-- The JSON document written by `saveSnapshot`. -/
structure SnapData where
  timestamp : Str
  count : Nat
  institutions : List Institution
deriving DecidableEq

/-- The snapshot directory: filenames mapped to their contents. -/
abbrev SnapStore := List (Str × SnapData)

/-- `writeFileSync`: create the file, or overwrite it if it exists. -/
def writeFile (st : SnapStore) (f : Str) (d : SnapData) : SnapStore :=
  if st.any (fun e => e.1 = f) then st.map (fun e => if e.1 = f then (f, d) else e)
  else st ++ [(f, d)]

/-- The snapshot filename,
`snapshot-${new Date().toISOString().replace(/[:.]/g, '-').slice(0, 19)}.json`. -/
def tsToName (iso : Str) : Str :=
  "snapshot-".data ++ (iso.map (fun c => if c = ':' || c = '.' then '-' else c)).take 19 ++
    ".json".data

/-- `saveSnapshot` (src/watcher/snapshot.js, lines 25–40); `now` stands
for the ISO string of `new Date()` at the moment of the call. -/
def saveSnapshot (now : Str) (institutions : List Institution) (st : SnapStore) : SnapStore :=
  writeFile st (tsToName now) ⟨now, institutions.length, institutions⟩

/-- `diffSnapshots` (src/watcher/snapshot.js, lines 67–75); the JS
`Set` is only consulted through `has`, modelled by list membership. -/
def diffSnapshots (current previous : List Institution) :
    List Institution × List Institution :=
  let prevNames := previous.map (fun i => i.name)
  let currNames := current.map (fun i => i.name)
  (current.filter (fun i => !(prevNames.contains i.name)),
   previous.filter (fun i => !(currNames.contains i.name)))

example : diffSnapshots [mkInst "Alpha".data "100".data, mkInst "Beta".data "200".data]
    [mkInst "Alpha".data "100".data] =
    ([mkInst "Beta".data "200".data], []) := by decide

/-- A contact as persisted in `enrichment.json` and seen by the
pipeline's cross-company dedup pass (src/pipeline.js). -/
structure PContact where
  name : Str
  title : Str
  linkedInUrl : Str
  lowConfidence : Bool
  duplicateOf : Option Str
deriving DecidableEq

/-- One entry of `enrichment.json`'s `results`. -/
structure EnrichResult where
  company : Str
  status : Str
  contacts : List PContact
deriving DecidableEq

/-- `contact.linkedInUrl || name.toLowerCase()|title.toLowerCase()`
(the empty string is falsy, so an empty URL falls back to name|title). -/
def contactKey (c : PContact) : Str :=
  if c.linkedInUrl.isEmpty then lowerStr c.name ++ '|' :: lowerStr c.title
  else c.linkedInUrl

/-- The `'enriched'` status string. -/
def enrichedStatus : Str := "enriched".data

/-- The `contactIndex` entry for key `k`: the companies (with
multiplicity, in iteration order) of the enriched results whose contact
lists contain a contact with key `k`. -/
def companiesOf (results : List EnrichResult) (k : Str) : List Str :=
  (results.filter (fun r => r.status = enrichedStatus)).flatMap
    (fun r => (r.contacts.filter (fun c => contactKey c = k)).map (fun _ => r.company))

/-- Whether the dedup loop flags contact `c` of result `r`: for every
key held by two or more index entries, every matching contact of every
company in `companies.slice(1)` is marked.  The model assumes the
results carry pairwise distinct company names, which holds at the call
site because they are the values of a `Map` keyed by company. -/
def dupFlag (results : List EnrichResult) (r : EnrichResult) (c : PContact) : Bool :=
  r.status = enrichedStatus &&
    (companiesOf results (contactKey c)).tail.contains r.company

/-- The effect of the flag loop on one contact: a flagged contact gets
`lowConfidence = true` and `duplicateOf = companies[0]` (the first-seen
company of its key); any other contact is left as it is. -/
def dedupContact (results : List EnrichResult) (r : EnrichResult) (c : PContact) : PContact :=
  if dupFlag results r c then
    { c with lowConfidence := true,
             duplicateOf := some ((companiesOf results (contactKey c)).headD []) }
  else c

/-- The cross-company dedup pass of `main` (src/pipeline.js, lines
252–288): contacts are flagged in place; nothing is removed. -/
def dedupPass (results : List EnrichResult) : List EnrichResult :=
  results.map (fun r => { r with contacts := r.contacts.map (dedupContact results r) })

/-- A pipeline contact with a name, a title and a LinkedIn URL. -/
def mkPContact (name title url : Str) : PContact := ⟨name, title, url, false, none⟩

example :
    dedupPass
      [⟨"A".data, enrichedStatus, [mkPContact "x".data "t".data "u".data]⟩,
       ⟨"B".data, enrichedStatus, [mkPContact "y".data "s".data "u".data]⟩] =
      [⟨"A".data, enrichedStatus, [mkPContact "x".data "t".data "u".data]⟩,
       ⟨"B".data, enrichedStatus,
        [⟨"y".data, "s".data, "u".data, true, some "A".data⟩]⟩] := by decide

example :
    dedupPass
      [⟨"A".data, enrichedStatus,
        [mkPContact "x".data "t".data "u".data, mkPContact "z".data "w".data "u".data]⟩,
       ⟨"B".data, enrichedStatus, [mkPContact "y".data "s".data "u".data]⟩] =
      [⟨"A".data, enrichedStatus,
        [⟨"x".data, "t".data, "u".data, true, some "A".data⟩,
         ⟨"z".data, "w".data, "u".data, true, some "A".data⟩]⟩,
       ⟨"B".data, enrichedStatus,
        [⟨"y".data, "s".data, "u".data, true, some "A".data⟩]⟩] := by decide

/-! ### Generic lemmas about the string and list operations -/

theorem jsIncludes_iff (s pat : Str) : jsIncludes s pat = true ↔ pat <:+: s := by
  induction s with
  | nil => simp [jsIncludes, List.isPrefixOf_iff_prefix]
  | cons c t ih =>
    rw [jsIncludes]
    simp [List.isPrefixOf_iff_prefix, ih, List.infix_cons_iff]

theorem insertLenDesc_perm (a : Str) (l : List Str) : (insertLenDesc a l).Perm (a :: l) := by
  induction l with
  | nil => exact List.Perm.refl _
  | cons b t ih =>
    rw [insertLenDesc]
    by_cases h : b.length ≤ a.length
    · rw [if_pos h]
    · rw [if_neg h]
      exact (ih.cons b).trans (List.Perm.swap a b t)

theorem sortLenDesc_perm (l : List Str) : (sortLenDesc l).Perm l := by
  induction l with
  | nil => exact List.Perm.refl _
  | cons a t ih => exact (insertLenDesc_perm a (sortLenDesc t)).trans (ih.cons a)

theorem mem_sortLenDesc (l : List Str) (x : Str) : x ∈ sortLenDesc l ↔ x ∈ l :=
  (sortLenDesc_perm l).mem_iff

theorem insertByPriority_perm (a : RankedContact) (l : List RankedContact) :
    (insertByPriority a l).Perm (a :: l) := by
  induction l with
  | nil => exact List.Perm.refl _
  | cons b t ih =>
    rw [insertByPriority]
    by_cases h : a.priority ≤ b.priority
    · rw [if_pos h]
    · rw [if_neg h]
      exact (ih.cons b).trans (List.Perm.swap a b t)

theorem sortByPriority_perm (l : List RankedContact) : (sortByPriority l).Perm l := by
  induction l with
  | nil => exact List.Perm.refl _
  | cons a t ih => exact (insertByPriority_perm a (sortByPriority t)).trans (ih.cons a)

theorem pairwise_insertByPriority (a : RankedContact) (l : List RankedContact)
    (h : l.Pairwise (fun x y => x.priority ≤ y.priority)) :
    (insertByPriority a l).Pairwise (fun x y => x.priority ≤ y.priority) := by
  induction l with
  | nil => simp [insertByPriority]
  | cons b t ih =>
    rw [insertByPriority]
    rcases List.pairwise_cons.mp h with ⟨hb, ht⟩
    by_cases hab : a.priority ≤ b.priority
    · rw [if_pos hab]
      refine List.pairwise_cons.mpr ⟨?_, h⟩
      intro y hy
      rcases List.mem_cons.mp hy with rfl | hy
      · exact hab
      · exact Nat.le_trans hab (hb y hy)
    · rw [if_neg hab]
      refine List.pairwise_cons.mpr ⟨?_, ih ht⟩
      intro y hy
      rcases List.mem_cons.mp ((insertByPriority_perm a t).mem_iff.mp hy) with h1 | h1
      · subst h1
        exact Nat.le_of_lt (Nat.lt_of_not_le hab)
      · exact hb y h1

theorem pairwise_sortByPriority (l : List RankedContact) :
    (sortByPriority l).Pairwise (fun x y => x.priority ≤ y.priority) := by
  induction l with
  | nil => simp [sortByPriority]
  | cons a t ih => exact pairwise_insertByPriority a (sortByPriority t) ih

theorem filter_insertByPriority (a : RankedContact) (l : List RankedContact) (p : Nat) :
    (insertByPriority a l).filter (fun x => x.priority == p) =
      (a :: l).filter (fun x => x.priority == p) := by
  induction l with
  | nil => rfl
  | cons b t ih =>
    rw [insertByPriority]
    by_cases hab : a.priority ≤ b.priority
    · rw [if_pos hab]
    · rw [if_neg hab]
      by_cases hbp : b.priority = p
      · have hap : (a.priority == p) = false := by
          refine beq_eq_false_iff_ne.mpr ?_
          omega
        simp only [List.filter_cons, hap, beq_self_eq_true, hbp, ih]
        simp [List.filter_cons, hap]
      · have hbp' : (b.priority == p) = false := beq_eq_false_iff_ne.mpr hbp
        simp only [List.filter_cons, hbp', ih]
        simp [List.filter_cons, hbp']

theorem filter_sortByPriority (l : List RankedContact) (p : Nat) :
    (sortByPriority l).filter (fun x => x.priority == p) =
      l.filter (fun x => x.priority == p) := by
  induction l with
  | nil => rfl
  | cons a t ih =>
    rw [sortByPriority, filter_insertByPriority]
    simp only [List.filter_cons, ih]

theorem dropWhile_idem (p : Char → Bool) (l : Str) :
    (l.dropWhile p).dropWhile p = l.dropWhile p := by
  induction l with
  | nil => rfl
  | cons c t ih =>
    by_cases h : p c
    · rw [List.dropWhile_cons_of_pos h, ih]
    · rw [List.dropWhile_cons_of_neg h, List.dropWhile_cons_of_neg h]

theorem trimLeft_of_trimmed (l : Str) : trimLeft (trimLeft l) = trimLeft l :=
  dropWhile_idem jsSpace l

theorem trimRight_idem (l : Str) : trimRight (trimRight l) = trimRight l := by
  unfold trimRight
  rw [List.reverse_reverse, dropWhile_idem]

theorem head_dropWhile_false (p : Char → Bool) (l : Str) (c : Char) (u : Str)
    (h : l.dropWhile p = c :: u) : p c = false := by
  induction l with
  | nil => cases h
  | cons d t ih =>
    by_cases hd : p d
    · rw [List.dropWhile_cons_of_pos hd] at h
      exact ih h
    · rw [List.dropWhile_cons_of_neg hd] at h
      cases h
      exact Bool.eq_false_iff.mpr hd

theorem trimLeft_trimRight (l : Str) :
    trimLeft (trimRight (trimLeft l)) = trimRight (trimLeft l) := by
  rcases h : trimRight (trimLeft l) with _ | ⟨c, t⟩
  · rfl
  · have hpre : trimRight (trimLeft l) <+: trimLeft l := by
      unfold trimRight
      rcases List.dropWhile_suffix (l := (trimLeft l).reverse) (p := jsSpace) with ⟨u, hu⟩
      exact ⟨u.reverse, by rw [← List.reverse_append, hu, List.reverse_reverse]⟩
    rw [h] at hpre
    have hc : c ∈ trimLeft l := hpre.subset (List.mem_cons_self c t)
    have hhead : jsSpace c = false := by
      rcases hu : trimLeft l with _ | ⟨d, u⟩
      · rw [hu] at hc
        cases hc
      · have hcd : c = d := by
          rw [hu] at hpre
          exact (List.cons_prefix_cons.mp hpre).1
        subst hcd
        exact head_dropWhile_false jsSpace l c u hu
    rw [trimLeft, List.dropWhile_cons_of_neg (by simp [hhead])]

theorem jsTrim_idem (s : Str) : jsTrim (jsTrim s) = jsTrim s := by
  unfold jsTrim
  rw [trimLeft_trimRight, trimRight_idem]

/-! ### `replaceAll` removes every occurrence of its pattern

The key facts behind the name-stripping loop of `resultMentionsCompany`:
after `text.replaceAll(w, ' ')` the word `w` no longer occurs in the
text (provided `w` does not contain the replacement character), and a
replacement pass for a different word cannot re-introduce `w`. -/

theorem replaceAllGo_prefix_aux (q₀ : Char) (qs : Str) (r : Char) (p : Str) (hr : r ∉ p) :
    ∀ fuel s u q, s.length ≤ fuel → p = u ++ q →
      ¬ p <+: (u ++ s) → q <+: replaceAllGo q₀ qs r fuel s → q = [] := by
  intro fuel
  induction fuel with
  | zero =>
    intro s u q hlen _ _ hq
    have hs : s = [] := List.length_eq_zero.mp (Nat.le_zero.mp hlen)
    subst hs
    exact List.prefix_nil.mp hq
  | succ fuel ih =>
    intro s u q hlen hp hnp hq
    cases s with
    | nil => exact List.prefix_nil.mp hq
    | cons c s' =>
      rw [replaceAllGo] at hq
      by_cases hpre : (q₀ :: qs).isPrefixOf (c :: s')
      · rw [if_pos hpre] at hq
        cases q with
        | nil => rfl
        | cons x q' =>
          exfalso
          have hx : x = r := (List.cons_prefix_cons.mp hq).1
          apply hr
          rw [hp, ← hx]
          exact List.mem_append_right u (List.mem_cons_self x q')
      · rw [if_neg hpre] at hq
        cases q with
        | nil => rfl
        | cons x q' =>
          exfalso
          obtain ⟨hx, hq'⟩ := List.cons_prefix_cons.mp hq
          subst hx
          have hq0 : q' = [] := by
            refine ih s' (u ++ [x]) q' (Nat.le_of_succ_le_succ hlen) ?_ ?_ hq'
            · rw [hp, List.append_cons]
            · rw [← List.append_cons]
              exact hnp
          subst hq0
          apply hnp
          rw [hp, List.append_cons u x s']
          exact List.prefix_append (u ++ [x]) s'

theorem not_infix_replaceAllGo (p₀ : Char) (ps : Str) (r : Char) (hr : r ∉ p₀ :: ps) :
    ∀ fuel s, s.length ≤ fuel → ¬ (p₀ :: ps) <:+: replaceAllGo p₀ ps r fuel s := by
  intro fuel
  induction fuel with
  | zero =>
    intro s hlen hinf
    have hs : s = [] := List.length_eq_zero.mp (Nat.le_zero.mp hlen)
    subst hs
    exact List.cons_ne_nil p₀ ps (List.infix_nil.mp hinf)
  | succ fuel ih =>
    intro s hlen hinf
    cases s with
    | nil => exact List.cons_ne_nil p₀ ps (List.infix_nil.mp hinf)
    | cons c s' =>
      rw [replaceAllGo] at hinf
      by_cases hpre : (p₀ :: ps).isPrefixOf (c :: s')
      · rw [if_pos hpre] at hinf
        rcases List.infix_cons_iff.mp hinf with h | h
        · exact hr (by rw [(List.cons_prefix_cons.mp h).1]; exact List.mem_cons_self _ _)
        · refine ih (s'.drop ps.length) ?_ h
          calc (s'.drop ps.length).length ≤ s'.length := by
                rw [List.length_drop]; omega
            _ ≤ fuel := Nat.le_of_succ_le_succ hlen
      · rw [if_neg hpre] at hinf
        have hnpre : ¬ (p₀ :: ps) <+: (c :: s') := fun h =>
          hpre (List.isPrefixOf_iff_prefix.mpr h)
        rcases List.infix_cons_iff.mp hinf with h | h
        · obtain ⟨hc, hps⟩ := List.cons_prefix_cons.mp h
          subst hc
          have hps0 : ps = [] :=
            replaceAllGo_prefix_aux p₀ ps r (p₀ :: ps) hr fuel s' [p₀] ps
              (Nat.le_of_succ_le_succ hlen) rfl (by simpa using hnpre) hps
          subst hps0
          exact hnpre (List.cons_prefix_cons.mpr ⟨rfl, List.nil_prefix⟩)
        · exact ih s' (Nat.le_of_succ_le_succ hlen) h

theorem replaceAllGo_preserve (q₀ : Char) (qs : Str) (r : Char) (p : Str)
    (hp : p ≠ []) (hr : r ∉ p) :
    ∀ fuel s, s.length ≤ fuel → ¬ p <:+: s → ¬ p <:+: replaceAllGo q₀ qs r fuel s := by
  intro fuel
  induction fuel with
  | zero =>
    intro s hlen hns
    have hs : s = [] := List.length_eq_zero.mp (Nat.le_zero.mp hlen)
    subst hs
    exact hns
  | succ fuel ih =>
    intro s hlen hns hinf
    cases s with
    | nil => exact hns (by rwa [replaceAllGo] at hinf)
    | cons c s' =>
      obtain ⟨h₀, t, ht⟩ : ∃ h₀ t, p = h₀ :: t := by
        cases p with
        | nil => exact absurd rfl hp
        | cons a b => exact ⟨a, b, rfl⟩
      have hns' : ¬ p <:+: s' := fun h =>
        hns (h.trans (List.suffix_cons c s').isInfix)
      rw [replaceAllGo] at hinf
      by_cases hpre : (q₀ :: qs).isPrefixOf (c :: s')
      · rw [if_pos hpre] at hinf
        rcases List.infix_cons_iff.mp hinf with h | h
        · apply hr
          rw [ht] at h ⊢
          rw [(List.cons_prefix_cons.mp h).1]
          exact List.mem_cons_self _ _
        · refine ih (s'.drop qs.length) ?_ ?_ h
          · calc (s'.drop qs.length).length ≤ s'.length := by
                  rw [List.length_drop]; omega
              _ ≤ fuel := Nat.le_of_succ_le_succ hlen
          · intro hin
            exact hns' (hin.trans (List.drop_suffix qs.length s').isInfix)
      · rw [if_neg hpre] at hinf
        rcases List.infix_cons_iff.mp hinf with h | h
        · rw [ht] at h
          obtain ⟨hc, htp⟩ := List.cons_prefix_cons.mp h
          subst hc
          have ht0 : t = [] := by
            refine replaceAllGo_prefix_aux q₀ qs r p hr fuel s' [h₀] t
              (Nat.le_of_succ_le_succ hlen) ht ?_ htp
            intro hpp
            exact hns (by simpa using hpp.isInfix)
          rw [ht0] at ht
          apply hns
          rw [ht]
          exact ((List.cons_prefix_cons.mpr ⟨rfl, List.nil_prefix⟩).isInfix :
            [h₀] <:+: h₀ :: s')
        · exact ih s' (Nat.le_of_succ_le_succ hlen) hns' h

theorem not_infix_jsReplaceAll (p : Str) (hp : p ≠ []) (r : Char) (hr : r ∉ p) (s : Str) :
    ¬ p <:+: jsReplaceAll s p r := by
  cases p with
  | nil => exact absurd rfl hp
  | cons p₀ ps =>
    rw [jsReplaceAll]
    exact not_infix_replaceAllGo p₀ ps r hr s.length s (Nat.le_refl _)

theorem preserve_jsReplaceAll (p pat : Str) (hp : p ≠ []) (hpat : pat ≠ []) (r : Char)
    (hr : r ∉ p) (s : Str) (hs : ¬ p <:+: s) : ¬ p <:+: jsReplaceAll s pat r := by
  cases pat with
  | nil => exact absurd rfl hpat
  | cons q₀ qs =>
    rw [jsReplaceAll]
    exact replaceAllGo_preserve q₀ qs r p hp hr s.length s (Nat.le_refl _) hs

theorem stripNameWords_preserve (p : Str) (hp : p ≠ []) (hr : ' ' ∉ p) :
    ∀ ws t, ¬ p <:+: t → ¬ p <:+: stripNameWords ws t := by
  intro ws
  induction ws with
  | nil => exact fun t h => h
  | cons w ws ih =>
    intro t h
    rw [stripNameWords, List.foldl_cons]
    by_cases h3 : 3 ≤ w.length
    · rw [if_pos h3]
      exact ih _ (preserve_jsReplaceAll p w hp (by intro hw; rw [hw] at h3; simp at h3)
        ' ' hr t h)
    · rw [if_neg h3]
      exact ih t h

theorem stripNameWords_absent (w : Str) (h3 : 3 ≤ w.length) (hr : ' ' ∉ w) :
    ∀ ws t, w ∈ ws → ¬ w <:+: stripNameWords ws t := by
  intro ws
  induction ws with
  | nil => intro t hmem; cases hmem
  | cons w' ws ih =>
    intro t hmem
    rw [stripNameWords, List.foldl_cons]
    rcases List.mem_cons.mp hmem with rfl | hmem'
    · rw [if_pos h3]
      refine stripNameWords_preserve w (by intro hw; rw [hw] at h3; simp at h3) hr ws _ ?_
      exact not_infix_jsReplaceAll w (by intro hw; rw [hw] at h3; simp at h3) ' ' hr t
    · by_cases h3' : 3 ≤ w'.length
      · rw [if_pos h3']
        exact ih _ hmem'
      · rw [if_neg h3']
        exact ih t hmem'

theorem splitWsGo_no_space :
    ∀ (s : Str) (flag : Bool) (acc : Str), (∀ c ∈ acc, jsSpace c = false) →
      ∀ t ∈ splitWsGo flag s acc, ∀ c ∈ t, jsSpace c = false := by
  intro s
  induction s with
  | nil =>
    intro flag acc hacc t ht c hc
    cases flag with
    | false =>
      rw [splitWsGo] at ht
      rw [List.mem_singleton.mp ht] at hc
      exact hacc c (List.mem_reverse.mp hc)
    | true =>
      rw [splitWsGo] at ht
      rw [List.mem_singleton.mp ht] at hc
      cases hc
  | cons d l ih =>
    intro flag acc hacc t ht c hc
    cases flag with
    | false =>
      rw [splitWsGo] at ht
      by_cases hd : jsSpace d
      · rw [if_pos hd] at ht
        rcases List.mem_cons.mp ht with rfl | ht'
        · exact hacc c (List.mem_reverse.mp hc)
        · exact ih true [] (by intro x hx; cases hx) t ht' c hc
      · rw [if_neg hd] at ht
        refine ih false (d :: acc) ?_ t ht c hc
        intro x hx
        rcases List.mem_cons.mp hx with rfl | hx'
        · exact Bool.eq_false_iff.mpr hd
        · exact hacc x hx'
    | true =>
      rw [splitWsGo] at ht
      by_cases hd : jsSpace d
      · rw [if_pos hd] at ht
        exact ih true [] (by intro x hx; cases hx) t ht c hc
      · rw [if_neg hd] at ht
        refine ih false [d] ?_ t ht c hc
        intro x hx
        rcases List.mem_cons.mp hx with rfl | hx'
        · exact Bool.eq_false_iff.mpr hd
        · cases hx'

/-- The person-name words actually removed by `strippedText`: the
whitespace-split words of the extracted contact name having length ≥ 3
(none when the whole contact name is shorter than 3 characters). -/
def nameWordsOf (title : Str) : List Str :=
  if 3 ≤ (contactNameOf title).length then
    (jsSplitWs (contactNameOf title)).filter (fun w => 3 ≤ w.length)
  else []

theorem perm_any {α : Type} {l₁ l₂ : List α} (f : α → Bool) (h : l₁.Perm l₂) :
    l₁.any f = l₂.any f := by
  cases h1 : l₁.any f
  · cases h2 : l₂.any f
    · rfl
    · rcases List.any_eq_true.mp h2 with ⟨x, hx, hfx⟩
      rw [List.any_eq_false] at h1
      exact absurd hfx (h1 x (h.mem_iff.mpr hx))
  · rcases List.any_eq_true.mp h1 with ⟨x, hx, hfx⟩
    exact (List.any_eq_true.mpr ⟨x, h.mem_iff.mp hx, hfx⟩).symm

theorem findPriority_spec (t : Str) :
    (∃ e ∈ titlePriority, jsIncludes (lowerStr t) (lowerStr e.1) = true ∧ findPriority t = e.2) ∨
    ((∀ e ∈ titlePriority, jsIncludes (lowerStr t) (lowerStr e.1) = false) ∧
      findPriority t = 99) := by
  unfold findPriority
  cases h : titlePriority.find? (fun e => jsIncludes (lowerStr t) (lowerStr e.1)) with
  | none =>
    right
    refine ⟨?_, rfl⟩
    intro e he
    have := List.find?_eq_none.mp h e he
    simpa using this
  | some e =>
    left
    refine ⟨e, List.mem_of_find?_eq_some h, ?_, rfl⟩
    simpa using List.find?_some h

theorem mem_companiesOf (results : List EnrichResult) (r : EnrichResult) (c : PContact)
    (hr : r ∈ results) (hs : r.status = enrichedStatus) (hc : c ∈ r.contacts) :
    r.company ∈ companiesOf results (contactKey c) := by
  unfold companiesOf
  rw [List.mem_flatMap]
  refine ⟨r, List.mem_filter.mpr ⟨hr, by simp [hs]⟩, ?_⟩
  rw [List.mem_map]
  exact ⟨c, List.mem_filter.mpr ⟨hc, by simp⟩, rfl⟩

theorem dedupContact_core (results : List EnrichResult) (r : EnrichResult) (c : PContact) :
    ((dedupContact results r c).name, (dedupContact results r c).title,
      (dedupContact results r c).linkedInUrl) = (c.name, c.title, c.linkedInUrl) := by
  unfold dedupContact
  split <;> rfl

/-! ### The claims -/

/-- C1: `resultMentionsCompany` satisfies both §8 collision cases: a
search result about the person "Ariana Lobo" working at "XYZ Corp" is
not matched to the company "ARIANA INVESTMENT PTE. LTD.", while a
result about "John Smith" at "Ariana Investment" is. -/
theorem C1_collision_property :
    resultMentionsCompany "Ariana Lobo - Compliance Manager - XYZ Corp".data
        "Works at XYZ Corp".data "ARIANA INVESTMENT PTE. LTD.".data = false ∧
    resultMentionsCompany "John Smith - CCO - Ariana Investment".data
        "Chief Compliance Officer at Ariana Investment".data
        "ARIANA INVESTMENT PTE. LTD.".data = true :=
  ⟨by decide, by decide⟩

/-- C2: the claim says a match requires the longest significant keyword;
the code (`sorted.some(kw => text.includes(kw))`) accepts any
significant keyword.  At this input the longest keyword "investment"
does not occur in the cleaned text, only the shorter keyword "ariana"
does, and the function nevertheless returns true — contradicting the
claim (and the code's own comment, which says the longest keyword is
what is checked). -/
theorem C2_any_keyword_divergence :
    resultMentionsCompany "Foo".data "ariana fund".data
        "ARIANA INVESTMENT PTE. LTD.".data = true ∧
    sortLenDesc (significantKeywords
        (lowerStr (normalizeCompanyName "ARIANA INVESTMENT PTE. LTD.".data))) =
      ["investment".data, "ariana".data] ∧
    jsIncludes (strippedText "Foo".data "ariana fund".data) "investment".data = false ∧
    jsIncludes (strippedText "Foo".data "ariana fund".data) "ariana".data = true := by
  refine ⟨by decide, by decide, by decide, by decide⟩

/-- C3 counterexample: the removal of person-name words is a plain
`replaceAll`, not whole-word.  For the title "Vest Tan - Analyst" the
name word "vest" occurs strictly inside the longer text token
"investco"; the claim says that occurrence is left intact, but the code
destroys it — "investco" occurs in the raw lowercased text and no
longer occurs in the stripped text, and the company "INVESTCO PTE LTD"
is consequently not matched. -/
theorem C3_counterexample :
    nameWordsOf "Vest Tan - Analyst".data = ["vest".data, "tan".data] ∧
    jsIncludes "investco".data "vest".data = true ∧
    "investco".data ≠ "vest".data ∧
    jsIncludes (lowerStr ("Vest Tan - Analyst".data ++ ' ' :: "works at investco".data))
      "investco".data = true ∧
    jsIncludes (strippedText "Vest Tan - Analyst".data "works at investco".data)
      "investco".data = false ∧
    resultMentionsCompany "Vest Tan - Analyst".data "works at investco".data
      "INVESTCO PTE LTD".data = false := by
  refine ⟨by decide, by decide, by decide, by decide, by decide, by decide⟩

/-- C3 amended: every word of length ≥ 3 of the person name extracted
from the result title is removed from the combined title+snippet text
case-insensitively as a plain substring — every occurrence, including
occurrences strictly inside longer words, is replaced, so no extracted
name word occurs in the cleaned text at all. -/
theorem C3_plain_substring_removal (title snippet w : Str) (hw : w ∈ nameWordsOf title) :
    ¬ w <:+: strippedText title snippet := by
  unfold nameWordsOf at hw
  by_cases hcn : 3 ≤ (contactNameOf title).length
  · rw [if_pos hcn] at hw
    obtain ⟨hmem, h3b⟩ := List.mem_filter.mp hw
    have h3 : 3 ≤ w.length := by simpa using h3b
    have hnos : ∀ c ∈ w, jsSpace c = false :=
      splitWsGo_no_space (contactNameOf title) false [] (by intro c hc; cases hc) w hmem
    have hsp : ' ' ∉ w := by
      intro hc
      have := hnos ' ' hc
      simp [jsSpace] at this
    unfold strippedText
    rw [if_pos hcn]
    exact stripNameWords_absent w h3 hsp (jsSplitWs (contactNameOf title)) _ hmem
  · rw [if_neg hcn] at hw
    cases hw

/-- C3 witness: the word "vest" is an extracted name word of the title
"Vest Tan - Analyst", so by the amended claim it does not occur in the
stripped text. -/
theorem C3_witness :
    "vest".data ∈ nameWordsOf "Vest Tan - Analyst".data ∧
    ¬ "vest".data <:+: strippedText "Vest Tan - Analyst".data "works at investco".data :=
  ⟨by decide,
   C3_plain_substring_removal "Vest Tan - Analyst".data "works at investco".data
     "vest".data (by decide)⟩

/-- C4 counterexample: two entities with the same registry id `100` but
different names are reported as both added and removed — `diffSnapshots`
never keys by `fid`, contradicting the claim that entities sharing a
`fid` are treated as the same entity. -/
theorem C4_counterexample :
    (mkInst "Beta".data "100".data).fid = (mkInst "Alpha".data "100".data).fid ∧
    diffSnapshots [mkInst "Beta".data "100".data] [mkInst "Alpha".data "100".data] =
      ([mkInst "Beta".data "100".data], [mkInst "Alpha".data "100".data]) := by
  refine ⟨by decide, by decide⟩

theorem not_contains_name_iff (l : List Institution) (nm : Str) :
    ((l.map (fun i => i.name)).contains nm = false) ↔ ∀ p ∈ l, p.name ≠ nm := by
  rw [← Bool.not_eq_true]
  simp [List.mem_map]

/-- C4 amended: both sides of `diffSnapshots` are keyed by the same
stable identifier, namely the canonical name alone; the registry id is
never consulted.  An entity is added iff it is in `current` and no
entity of `previous` shares its name, and removed iff it is in
`previous` and no entity of `current` shares its name. -/
theorem C4_name_keyed (current previous : List Institution) (e : Institution) :
    (e ∈ (diffSnapshots current previous).1 ↔
      e ∈ current ∧ ∀ p ∈ previous, p.name ≠ e.name) ∧
    (e ∈ (diffSnapshots current previous).2 ↔
      e ∈ previous ∧ ∀ c ∈ current, c.name ≠ e.name) := by
  constructor
  · constructor
    · intro h
      obtain ⟨hmem, hb⟩ := List.mem_filter.mp h
      rw [Bool.not_eq_true'] at hb
      exact ⟨hmem, (not_contains_name_iff previous e.name).mp hb⟩
    · intro h
      refine List.mem_filter.mpr ⟨h.1, ?_⟩
      rw [Bool.not_eq_true']
      exact (not_contains_name_iff previous e.name).mpr h.2
  · constructor
    · intro h
      obtain ⟨hmem, hb⟩ := List.mem_filter.mp h
      rw [Bool.not_eq_true'] at hb
      exact ⟨hmem, (not_contains_name_iff current e.name).mp hb⟩
    · intro h
      refine List.mem_filter.mpr ⟨h.1, ?_⟩
      rw [Bool.not_eq_true']
      exact (not_contains_name_iff current e.name).mpr h.2

/-- C5 counterexample: `normalizeCompanyName` strips only one trailing
legal suffix per application, so it is not idempotent on
"A LIMITED LTD": one pass gives "A LIMITED", a second pass "A". -/
theorem C5_counterexample :
    normalizeCompanyName (normalizeCompanyName "A LIMITED LTD".data) ≠
      normalizeCompanyName "A LIMITED LTD".data ∧
    normalizeCompanyName "A LIMITED LTD".data = "A LIMITED".data ∧
    normalizeCompanyName "A LIMITED".data = "A".data := by
  refine ⟨by decide, by decide, by decide⟩

/-- C5 amended: `normalizeCompanyName` is idempotent on exactly those
inputs whose normal form is a fixed point of the two replacement steps:
whenever the normalized name has no further trailing legal suffix and
no `(SINGAPORE)` marker, a second application changes nothing (the
final `trim` is idempotent).  Names ending in two stacked suffixes,
such as "A LIMITED LTD", escape the hypothesis and violate idempotence. -/
theorem C5_conditional_idempotence (x : Str)
    (h1 : stripLegalSuffix (normalizeCompanyName x) = normalizeCompanyName x)
    (h2 : stripSingapore (normalizeCompanyName x) = normalizeCompanyName x) :
    normalizeCompanyName (normalizeCompanyName x) = normalizeCompanyName x :=
  calc normalizeCompanyName (normalizeCompanyName x)
      = jsTrim (stripSingapore (stripLegalSuffix (normalizeCompanyName x))) := rfl
    _ = jsTrim (normalizeCompanyName x) := by rw [h1, h2]
    _ = normalizeCompanyName x := jsTrim_idem (stripSingapore (stripLegalSuffix x))

/-- C5 witness: "ABC PTE LTD" normalizes to "ABC", which is a fixed
point of both replacement steps, so normalization is idempotent there. -/
theorem C5_witness :
    stripLegalSuffix (normalizeCompanyName "ABC PTE LTD".data) =
      normalizeCompanyName "ABC PTE LTD".data ∧
    stripSingapore (normalizeCompanyName "ABC PTE LTD".data) =
      normalizeCompanyName "ABC PTE LTD".data ∧
    normalizeCompanyName (normalizeCompanyName "ABC PTE LTD".data) =
      normalizeCompanyName "ABC PTE LTD".data :=
  ⟨by decide, by decide, C5_conditional_idempotence "ABC PTE LTD".data (by decide) (by decide)⟩

/-- C6 counterexample: the claim's benefit-of-the-doubt case covers only
a `null`/absent employer; but JS falsiness also lets the *empty-string*
employer through.  The target has the significant keyword "apollo",
which the empty employer text does not contain, so by the claim's "if
and only if" the result should be false — yet the code returns true. -/
theorem C6_counterexample :
    verifyContactCompany ⟨[], [], some []⟩
      "APOLLO MANAGEMENT INTERNATIONAL PTE LTD".data = true ∧
    significantKeywords
      (lowerStr (normalizeCompanyName "APOLLO MANAGEMENT INTERNATIONAL PTE LTD".data)) =
      ["apollo".data] ∧
    jsIncludes (lowerStr ([] : Str)) "apollo".data = false := by
  refine ⟨by decide, by decide, by decide⟩

/-- C6 amended: `verifyContactCompany` returns true whenever the
employer is null, absent, **or empty** (JS falsiness); otherwise it
returns true iff the employer text contains at least one significant
keyword of the normalized target name (or, when the target has no
significant keyword, contains the full normalized target name).  The
two §8 examples hold. -/
theorem C6_employer_verification :
    (∀ n t target, verifyContactCompany ⟨n, t, none⟩ target = true) ∧
    (∀ n t target, verifyContactCompany ⟨n, t, some []⟩ target = true) ∧
    (∀ n t e target, e ≠ [] →
      (verifyContactCompany ⟨n, t, some e⟩ target = true ↔
        (significantKeywords (lowerStr (normalizeCompanyName target)) = [] ∧
          lowerStr (normalizeCompanyName target) <:+: lowerStr e) ∨
        (∃ kw ∈ significantKeywords (lowerStr (normalizeCompanyName target)),
          kw <:+: lowerStr e))) ∧
    verifyContactCompany ⟨[], [], some "Apollo Management".data⟩
      "APOLLO MANAGEMENT INTERNATIONAL PTE LTD".data = true ∧
    verifyContactCompany ⟨[], [], some "JPMorgan Chase".data⟩
      "APOLLO MANAGEMENT INTERNATIONAL PTE LTD".data = false := by
  refine ⟨fun n t target => rfl, fun n t target => by simp [verifyContactCompany],
    ?_, by decide, by decide⟩
  intro n t e target he
  have hne : e.isEmpty = false := by
    cases e
    · exact absurd rfl he
    · rfl
  cases hk : significantKeywords (lowerStr (normalizeCompanyName target)) with
  | nil =>
    simp [verifyContactCompany, hne, hk, jsIncludes_iff]
  | cons k0 ks =>
    simp only [verifyContactCompany, hne, Bool.false_eq_true, if_false, hk,
      List.isEmpty_cons]
    rw [perm_any _ (sortLenDesc_perm (k0 :: ks)), List.any_eq_true]
    simp [jsIncludes_iff]

/-- C6 witness: instantiating the employer-present case at the §8
Apollo example, whose employer text is nonempty. -/
theorem C6_witness :
    verifyContactCompany ⟨[], [], some "Apollo Management".data⟩
        "APOLLO MANAGEMENT INTERNATIONAL PTE LTD".data = true ↔
      (significantKeywords
          (lowerStr (normalizeCompanyName "APOLLO MANAGEMENT INTERNATIONAL PTE LTD".data)) = [] ∧
        lowerStr (normalizeCompanyName "APOLLO MANAGEMENT INTERNATIONAL PTE LTD".data) <:+:
          lowerStr "Apollo Management".data) ∨
      (∃ kw ∈ significantKeywords
          (lowerStr (normalizeCompanyName "APOLLO MANAGEMENT INTERNATIONAL PTE LTD".data)),
        kw <:+: lowerStr "Apollo Management".data) :=
  C6_employer_verification.2.2.1 [] [] "Apollo Management".data
    "APOLLO MANAGEMENT INTERNATIONAL PTE LTD".data (by decide)

/-- C7 counterexample: two `saveSnapshot` calls within the same second
produce the same filename, and the second call overwrites the first
call's record — after the second call the store holds a single record
whose contents are not those written by the first call, so the store is
not append-only "regardless of how close together in time the calls
occur". -/
theorem C7_counterexample :
    saveSnapshot "2026-01-01T00:00:00.000Z".data [mkInst "A".data "1".data] [] =
      [(tsToName "2026-01-01T00:00:00.000Z".data,
        ⟨"2026-01-01T00:00:00.000Z".data, 1, [mkInst "A".data "1".data]⟩)] ∧
    saveSnapshot "2026-01-01T00:00:00.000Z".data []
        (saveSnapshot "2026-01-01T00:00:00.000Z".data [mkInst "A".data "1".data] []) =
      [(tsToName "2026-01-01T00:00:00.000Z".data,
        ⟨"2026-01-01T00:00:00.000Z".data, 0, []⟩)] ∧
    (⟨"2026-01-01T00:00:00.000Z".data, 1, [mkInst "A".data "1".data]⟩ : SnapData) ≠
      ⟨"2026-01-01T00:00:00.000Z".data, 0, []⟩ := by
  refine ⟨by decide, by decide, by decide⟩

/-- C7 amended: provided the call's truncated-to-second timestamp names
a file not already in the store, `saveSnapshot` appends exactly one new
record and leaves every earlier record in place with its contents
unchanged; two calls whose timestamps collide after truncation write
the same filename and the later call overwrites the earlier record. -/
theorem C7_append_when_fresh (now : Str) (institutions : List Institution) (st : SnapStore)
    (h : ∀ e ∈ st, e.1 ≠ tsToName now) :
    saveSnapshot now institutions st =
      st ++ [(tsToName now, ⟨now, institutions.length, institutions⟩)] := by
  have hany : st.any (fun e => e.1 = tsToName now) = false := by
    rw [List.any_eq_false]
    intro e he
    simpa using h e he
  simp [saveSnapshot, writeFile, hany]

/-- C7 witness: saving into a store holding one record under a
different filename appends the new record and keeps the old one. -/
theorem C7_witness :
    (∀ e ∈ [(("old.json".data : Str), (⟨"t".data, 0, []⟩ : SnapData))],
      e.1 ≠ tsToName "2026-01-01T00:00:00.000Z".data) ∧
    saveSnapshot "2026-01-01T00:00:00.000Z".data []
        [("old.json".data, ⟨"t".data, 0, []⟩)] =
      [("old.json".data, ⟨"t".data, 0, []⟩)] ++
        [(tsToName "2026-01-01T00:00:00.000Z".data,
          ⟨"2026-01-01T00:00:00.000Z".data, 0, []⟩)] :=
  ⟨by decide, C7_append_when_fresh "2026-01-01T00:00:00.000Z".data []
    [("old.json".data, ⟨"t".data, 0, []⟩)] (by decide)⟩

/-- C8: `rankContacts` sorts ascending by priority (adjacent pairs are
ordered), the sort is stable (for every priority value, the contacts
holding it appear exactly as in the priority-assigned input), each
title's priority is the value of a seniority-table entry whose key is a
case-insensitive substring of the title — 99 when no key matches — and
the §8 example ranks as [CCO, MLRO, Head of Compliance, Software
Engineer] with priorities 1, 2, 3, 99. -/
theorem C8_rank_and_sort :
    (∀ contacts, (rankContacts contacts).Pairwise (fun x y => x.priority ≤ y.priority)) ∧
    (∀ contacts p, (rankContacts contacts).filter (fun x => x.priority == p) =
      (contacts.map (fun c => ⟨c, findPriority c.title⟩)).filter
        (fun x => x.priority == p)) ∧
    (∀ t, (∃ e ∈ titlePriority, jsIncludes (lowerStr t) (lowerStr e.1) = true ∧
        findPriority t = e.2) ∨
      ((∀ e ∈ titlePriority, jsIncludes (lowerStr t) (lowerStr e.1) = false) ∧
        findPriority t = 99)) ∧
    rankContacts [mkContact "Software Engineer".data, mkContact "Head of Compliance".data,
        mkContact "CCO".data, mkContact "MLRO".data] =
      [⟨mkContact "CCO".data, 1⟩, ⟨mkContact "MLRO".data, 2⟩,
       ⟨mkContact "Head of Compliance".data, 3⟩,
       ⟨mkContact "Software Engineer".data, 99⟩] :=
  ⟨fun _ => pairwise_sortByPriority _, fun _ _ => filter_sortByPriority _ _,
   findPriority_spec, by decide⟩

/-- C9 counterexample: the dedup key "u" occurs in the contact lists of
the two distinct companies "A" and "B", with two occurrences in the
first-seen company "A"; the flag loop then marks *all* matching
contacts of "A" as well — no contact of the first-seen entity remains
unflagged, contradicting the claim. -/
theorem C9_counterexample :
    ("A".data : Str) ≠ "B".data ∧
    companiesOf
      [⟨"A".data, enrichedStatus,
        [mkPContact "x".data "t".data "u".data, mkPContact "z".data "w".data "u".data]⟩,
       ⟨"B".data, enrichedStatus, [mkPContact "y".data "s".data "u".data]⟩] "u".data =
      ["A".data, "A".data, "B".data] ∧
    dedupPass
      [⟨"A".data, enrichedStatus,
        [mkPContact "x".data "t".data "u".data, mkPContact "z".data "w".data "u".data]⟩,
       ⟨"B".data, enrichedStatus, [mkPContact "y".data "s".data "u".data]⟩] =
      [⟨"A".data, enrichedStatus,
        [⟨"x".data, "t".data, "u".data, true, some "A".data⟩,
         ⟨"z".data, "w".data, "u".data, true, some "A".data⟩]⟩,
       ⟨"B".data, enrichedStatus,
        [⟨"y".data, "s".data, "u".data, true, some "A".data⟩]⟩] := by
  refine ⟨by decide, by decide, by decide⟩

/-- C9 amended: the dedup pass removes nothing — every entity's
company, status and contact count, and every contact's name, title and
LinkedIn URL, are unchanged — and, provided the dedup key occurs at
most once in the first-seen entity's list, exactly the first-seen
entity's matching contact stays unflagged while every matching contact
of every other (enriched) entity gets `lowConfidence = true` and
`duplicateOf` set to the first-seen entity's name.  The company-name
`Nodup` hypothesis reflects the call site, where the results are the
values of a `Map` keyed by company. -/
theorem C9_dedup_flags :
    (∀ results, (dedupPass results).map (fun r =>
        (r.company, r.status, r.contacts.map (fun c => (c.name, c.title, c.linkedInUrl)))) =
      results.map (fun r =>
        (r.company, r.status, r.contacts.map (fun c => (c.name, c.title, c.linkedInUrl))))) ∧
    (∀ results k f rest,
      (results.map (fun r => r.company)).Nodup →
      companiesOf results k = f :: rest →
      f ∉ rest →
      rest ≠ [] →
      ∀ r ∈ results, ∀ c ∈ r.contacts, contactKey c = k →
        (r.company = f → dedupContact results r c = c) ∧
        (r.company ≠ f → r.status = enrichedStatus →
          dedupContact results r c =
            { c with lowConfidence := true, duplicateOf := some f })) := by
  constructor
  · intro results
    unfold dedupPass
    rw [List.map_map]
    refine List.map_congr_left ?_
    intro r _
    simp only [Function.comp]
    refine congrArg (fun x => (r.company, r.status, x)) ?_
    rw [List.map_map]
    refine List.map_congr_left ?_
    intro c _
    exact dedupContact_core results r c
  · intro results k f rest _ hcomp h1 _ r hr c hc hck
    constructor
    · intro hrf
      have hfl : dupFlag results r c = false := by
        unfold dupFlag
        rw [hck, hcomp, hrf]
        simp [h1]
      simp [dedupContact, hfl]
    · intro hrnf hst
      have hmem : r.company ∈ companiesOf results k := by
        rw [← hck]
        exact mem_companiesOf results r c hr hst hc
      rw [hcomp] at hmem
      rcases List.mem_cons.mp hmem with h | h
      · exact absurd h hrnf
      · have hfl : dupFlag results r c = true := by
          unfold dupFlag
          rw [hck, hcomp]
          simp [hst, h]
        simp [dedupContact, hfl, hck, hcomp]

/-- C9 witness: with the key "u" occurring once under "A" and once
under "B", B's matching contact is flagged with `duplicateOf = "A"`. -/
theorem C9_witness :
    dedupContact
      [⟨"A".data, enrichedStatus, [mkPContact "x".data "t".data "u".data]⟩,
       ⟨"B".data, enrichedStatus, [mkPContact "y".data "s".data "u".data]⟩]
      ⟨"B".data, enrichedStatus, [mkPContact "y".data "s".data "u".data]⟩
      (mkPContact "y".data "s".data "u".data) =
      { mkPContact "y".data "s".data "u".data with
          lowConfidence := true, duplicateOf := some "A".data } :=
  ((C9_dedup_flags.2
      [⟨"A".data, enrichedStatus, [mkPContact "x".data "t".data "u".data]⟩,
       ⟨"B".data, enrichedStatus, [mkPContact "y".data "s".data "u".data]⟩]
      "u".data "A".data ["B".data] (by decide) (by decide) (by decide) (by decide)
      ⟨"B".data, enrichedStatus, [mkPContact "y".data "s".data "u".data]⟩ (by decide)
      (mkPContact "y".data "s".data "u".data) (by decide) (by decide)).2
    (by decide) (by decide))

/-- C10: `rankContacts` does not disturb its input: the ranked result
is (a permutation of) fresh records, each of which is exactly an input
contact extended with the computed priority field — stripping the
priority field recovers the input contact list up to the sort's
permutation, so the caller's unranked list is unaffected. -/
theorem C10_rank_preserves_input (contacts : List Contact) :
    ((rankContacts contacts).map (fun r => r.base)).Perm contacts ∧
    ∀ r ∈ rankContacts contacts, r = ⟨r.base, findPriority r.base.title⟩ := by
  constructor
  · have h := (sortByPriority_perm
      (contacts.map (fun c => (⟨c, findPriority c.title⟩ : RankedContact)))).map
      (fun r => r.base)
    rw [List.map_map] at h
    have h2 : List.map ((fun (r : RankedContact) => r.base) ∘ fun c =>
        (⟨c, findPriority c.title⟩ : RankedContact)) contacts = contacts :=
      List.map_id contacts
    rw [h2] at h
    exact h
  · intro r hr
    have hr' : r ∈ contacts.map (fun c => (⟨c, findPriority c.title⟩ : RankedContact)) :=
      (sortByPriority_perm _).mem_iff.mp hr
    rcases List.mem_map.mp hr' with ⟨c, _, rfl⟩
    rfl

/-- C10 witness: instantiated at a one-element contact list. -/
theorem C10_witness :
    (((rankContacts [mkContact "CCO".data]).map (fun r => r.base)).Perm
      [mkContact "CCO".data]) ∧
    (⟨mkContact "CCO".data, 1⟩ : RankedContact) =
      ⟨(⟨mkContact "CCO".data, 1⟩ : RankedContact).base,
        findPriority (⟨mkContact "CCO".data, 1⟩ : RankedContact).base.title⟩ :=
  ⟨(C10_rank_preserves_input [mkContact "CCO".data]).1,
   (C10_rank_preserves_input [mkContact "CCO".data]).2
     ⟨mkContact "CCO".data, 1⟩ (by decide)⟩

end MasScout
